import Mathlib

/-!
Verification model of the RStatement bank-statement parser
(`parseKBank` = "Format A", `parseKTB` = "Format B").

Text is modelled as `List Char`; JS numbers are modelled as exact
rationals (`ℚ`); the regular expressions of the source are modelled by
explicit character-level scanners with the same matching discipline
(leftmost match, greedy character classes, lazy content capture bounded
by a lookahead).  Header metadata extraction (account number, owner,
branch, address) is independent of the transaction pipeline and is not
modelled.
-/

namespace RStatement

/-- Whitespace characters as matched by the `\s` class on the inputs at hand. -/
def isWsCh (c : Char) : Bool := c = ' ' || c = '\t' || c = '\n' || c = '\r'

/-- Decimal digit test (`\d`). -/
def isDigitCh (c : Char) : Bool := '0' ≤ c && c ≤ '9'

/-- Character class `[\d,]` of the numeric-token pattern. -/
def isDC (c : Char) : Bool := isDigitCh c || c = ','

/-- Numeric value of a digit character. -/
def digVal (c : Char) : Nat := c.toNat - '0'.toNat

/-- Value of a digit string, most significant digit first. -/
def digitsToNat (s : List Char) : Nat := s.foldl (fun a c => 10 * a + digVal c) 0

/-- Helper for `collapseWs`: `inRun` records whether the previous character
was whitespace (so that a continuing run emits nothing). -/
def collapseGo : Bool → List Char → List Char
  | _, [] => []
  | inRun, c :: rest =>
    if isWsCh c then
      (if inRun then [] else [' ']) ++ collapseGo true rest
    else c :: collapseGo false rest

/-- Model of `text.replace(/\s+/g, " ")`: every maximal whitespace run
becomes a single space. -/
def collapseWs (s : List Char) : List Char := collapseGo false s

/-- Does `p` occur at the head of `t`? -/
def startsL : List Char → List Char → Bool
  | [], _ => true
  | _ :: _, [] => false
  | p :: ps, t :: ts => p = t && startsL ps ts

/-- Model of JS `String.prototype.includes`. -/
def containsL (pat : List Char) : List Char → Bool
  | [] => startsL pat []
  | c :: rest => startsL pat (c :: rest) || containsL pat rest

/-- Model of `txt.replace(pat, "")` for a literal pattern: removes the first
occurrence of `pat`, leaves the text unchanged when `pat` does not occur. -/
def removeFirst (pat : List Char) : List Char → List Char
  | [] => []
  | c :: rest =>
    if startsL pat (c :: rest) then List.drop pat.length (c :: rest)
    else c :: removeFirst pat rest

/-- Model of `txt.split(pat)[0]`: the text before the first occurrence of
`pat`, or all of the text when `pat` does not occur. -/
def takeBefore : List Char → List Char → List Char
  | [], _ => []
  | c :: rest, pat =>
    if startsL pat (c :: rest) then []
    else c :: takeBefore rest pat

/-- Model of `String.prototype.trim`. -/
def trimL (s : List Char) : List Char :=
  ((s.dropWhile isWsCh).reverse.dropWhile isWsCh).reverse

/-- Model of `str.split(sep)` for a single-character separator. -/
def splitOnCh (sep : Char) : List Char → List (List Char)
  | [] => [[]]
  | c :: rest =>
    let r := splitOnCh sep rest
    if c = sep then [] :: r
    else (c :: r.headD []) :: r.tail

/-- Model of `tok.replace(/,/g, "")`. -/
def stripCommas (s : List Char) : List Char := s.filter (fun c => c ≠ ',')

/-! Exact rational arithmetic.  The `Rat` operations `+`, `-`, `|·|` are
irreducible in this library, so the model computes with `mkRat`-based
equivalents (`qadd`, `qsub`, `qabs`, proved equal to the standard
operations below); all values remain exact rationals. -/

/-- Addition on `ℚ` by numerator/denominator arithmetic; equals `a + b`. -/
def qadd (a b : ℚ) : ℚ := mkRat (a.num * b.den + b.num * a.den) (a.den * b.den)

/-- Subtraction on `ℚ` by numerator/denominator arithmetic; equals `a - b`. -/
def qsub (a b : ℚ) : ℚ := mkRat (a.num * b.den - b.num * a.den) (a.den * b.den)

/-- Absolute value on `ℚ` by numerator arithmetic; equals `|a|`. -/
def qabs (a : ℚ) : ℚ := mkRat (a.num.natAbs : Int) a.den

lemma qadd_eq (a b : ℚ) : qadd a b = a + b := (Rat.add_def' a b).symm

lemma qsub_eq (a b : ℚ) : qsub a b = a - b := (Rat.sub_def' a b).symm

lemma qabs_eq (a : ℚ) : qabs a = |a| := by
  rw [Rat.abs_def, qabs, Rat.mkRat_eq_divInt]

lemma q1_100 : (1 : ℚ) / 100 = mkRat 1 100 := by
  rw [Rat.mkRat_eq_divInt, Rat.divInt_eq_div]
  norm_num

lemma q5_100 : (5 : ℚ) / 100 = mkRat 5 100 := by
  rw [Rat.mkRat_eq_divInt, Rat.divInt_eq_div]
  norm_num

/-- Model of JS `parseFloat` on the comma-stripped numeric tokens this
parser feeds it: an optional integer digit run, then an optional `.` and
fraction digit run, read from the front of the string; `none` (NaN) when
no digit at all is consumed.  The value of `iii.ff` is the exact decimal
`(iii * 10^k + ff) / 10^k`. -/
def parseFloatQ (s : List Char) : Option ℚ :=
  match s.dropWhile isDigitCh with
  | '.' :: r2 =>
    if (s.takeWhile isDigitCh).isEmpty && (r2.takeWhile isDigitCh).isEmpty then none
    else
      some (mkRat
        (digitsToNat (s.takeWhile isDigitCh) * 10 ^ (r2.takeWhile isDigitCh).length
          + digitsToNat (r2.takeWhile isDigitCh))
        (10 ^ (r2.takeWhile isDigitCh).length))
  | _ =>
    if (s.takeWhile isDigitCh).isEmpty then none
    else some (digitsToNat (s.takeWhile isDigitCh))

/-- Model of JS `parseInt` on the digit strings this parser feeds it. -/
def parseIntNat (s : List Char) : Nat := digitsToNat (s.takeWhile isDigitCh)

/-- The amount parser used by both formats in the source:
`parseFloat(token.replace(/,/g, ""))`. -/
def parseAmount (tok : List Char) : Option ℚ := parseFloatQ (stripCommas tok)

/-- Format A year conversion: the source computes the string `"20" + y`
from the two-digit year `y` (civil calendar, fixed 2000s). -/
def kbankYearFull (y : List Char) : List Char := '2' :: '0' :: y

/-- Format B year conversion: `2500 + parseInt(y)` (buddhist era), then
minus 543 to the civil year. -/
def ktbYearAd (y : List Char) : Nat := 2500 + parseIntNat y - 543

/-! ### Generic leftmost-match scanner

`scanGo step fuel s` mirrors `matchAll`: at each position it attempts
`step` (one full match of the regex, returning the captures and the rest
of the text after the match); on failure it advances one character. -/

def scanGo (step : List Char → Option (α × List Char)) : Nat → List Char → List α
  | 0, _ => []
  | _ + 1, [] => []
  | f + 1, c :: t =>
    match step (c :: t) with
    | some (a, r) => a :: scanGo step f r
    | none => scanGo step f t

/-- Leftmost-match scan over the whole text (fuel = text length suffices
because every match consumes at least one character). -/
def scanAll (step : List Char → Option (α × List Char)) (s : List Char) : List α :=
  scanGo step s.length s

lemma scanGo_nil (step : List Char → Option (α × List Char)) (f : Nat) :
    scanGo step f [] = [] := by
  cases f <;> rfl

lemma scanGo_mono (step : List Char → Option (α × List Char))
    (hstep : ∀ s a r, step s = some (a, r) → r.length < s.length) :
    ∀ f₁ f₂ s, s.length ≤ f₁ → s.length ≤ f₂ → scanGo step f₁ s = scanGo step f₂ s := by
  intro f₁
  induction f₁ with
  | zero =>
    intro f₂ s h₁ _
    have : s = [] := List.length_eq_zero.mp (Nat.le_zero.mp h₁)
    subst this
    rw [scanGo_nil, scanGo_nil]
  | succ f ih =>
    intro f₂ s h₁ h₂
    cases s with
    | nil => rw [scanGo_nil, scanGo_nil]
    | cons c t =>
      obtain ⟨f₂', rfl⟩ : ∃ k, f₂ = k + 1 := by
        cases f₂ with
        | zero => simp at h₂
        | succ k => exact ⟨k, rfl⟩
      show (match step (c :: t) with
              | some (a, r) => a :: scanGo step f r
              | none => scanGo step f t) =
           (match step (c :: t) with
              | some (a, r) => a :: scanGo step f₂' r
              | none => scanGo step f₂' t)
      cases hs : step (c :: t) with
      | some ar =>
        obtain ⟨a, r⟩ := ar
        have hr := hstep _ _ _ hs
        simp only []
        rw [ih f₂' r (by simp at h₁ hr ⊢; omega) (by simp at h₂ hr ⊢; omega)]
      | none =>
        simp only []
        exact ih f₂' t (by simp at h₁ ⊢; omega) (by simp at h₂ ⊢; omega)

/-- Unfolding equation for `scanAll`, valid whenever each match consumes
at least one character. -/
lemma scanAll_eq (step : List Char → Option (α × List Char))
    (hstep : ∀ s a r, step s = some (a, r) → r.length < s.length) (s : List Char) :
    scanAll step s =
      match step s with
      | some (a, r) => a :: scanAll step r
      | none =>
        match s with
        | [] => []
        | _ :: t => scanAll step t := by
  cases s with
  | nil =>
    have h0 : step [] = none := by
      cases hs : step [] with
      | none => rfl
      | some ar =>
        obtain ⟨a, r⟩ := ar
        have := hstep _ _ _ hs
        simp at this
    simp [scanAll, scanGo, h0]
  | cons c t =>
    show scanGo step (t.length + 1) (c :: t) = _
    cases hs : step (c :: t) with
    | some ar =>
      obtain ⟨a, r⟩ := ar
      have hr := hstep _ _ _ hs
      have : scanGo step t.length r = scanAll step r := by
        apply scanGo_mono step hstep
        · simp at hr; omega
        · exact Nat.le_refl _
      simp only [scanGo, hs, this, scanAll]
    | none =>
      show (match step (c :: t) with
              | some (a, r) => a :: scanGo step t.length r
              | none => scanGo step t.length t) = _
      rw [hs]
      rfl

/-! ### Numeric tokens: the global pattern `[\d,]+\.\d{2}` -/

/-- One match attempt of `[\d,]+\.\d{2}` at the head of `s`: a maximal
(greedy) nonempty run of digits/commas, a dot, then exactly two digits.
Returns the matched token and the rest of the text. -/
def tryNumTok (s : List Char) : Option (List Char × List Char) :=
  if (s.takeWhile isDC).isEmpty then none
  else
    match s.dropWhile isDC with
    | '.' :: a :: b :: r =>
      if isDigitCh a && isDigitCh b then some (s.takeWhile isDC ++ '.' :: a :: b :: [], r)
      else none
    | _ => none

lemma length_take_drop_while (p : Char → Bool) (s : List Char) :
    (s.takeWhile p).length + (s.dropWhile p).length = s.length := by
  rw [← List.length_append, List.takeWhile_append_dropWhile]

lemma tryNumTok_lt : ∀ s tok r, tryNumTok s = some (tok, r) → r.length < s.length := by
  intro s tok r h
  unfold tryNumTok at h
  split at h
  · exact absurd h (by simp)
  · split at h
    next a b r' heq =>
      split at h
      · obtain ⟨-, rfl⟩ := Prod.mk.injEq _ _ _ _ |>.mp (Option.some.inj h)
        have hlen := length_take_drop_while isDC s
        rw [heq] at hlen
        simp at hlen
        omega
      · exact absurd h (by simp)
    next _ => exact absurd h (by simp)

lemma scanAll_some (step : List Char → Option (α × List Char))
    (hstep : ∀ s a r, step s = some (a, r) → r.length < s.length)
    (s : List Char) (a : α) (r : List Char) (h : step s = some (a, r)) :
    scanAll step s = a :: scanAll step r := by
  rw [scanAll_eq step hstep s, h]

lemma scanAll_none (step : List Char → Option (α × List Char))
    (hstep : ∀ s a r, step s = some (a, r) → r.length < s.length)
    (c : Char) (t : List Char) (h : step (c :: t) = none) :
    scanAll step (c :: t) = scanAll step t := by
  rw [scanAll_eq step hstep (c :: t), h]

lemma scanAll_nil (step : List Char → Option (α × List Char)) :
    scanAll step [] = [] := rfl

/-- All matches of `/[\d,]+\.\d{2}/g` over the text, leftmost first. -/
def extractNums (s : List Char) : List (List Char) :=
  scanAll tryNumTok s

lemma extractNums_some (s tok r : List Char) (h : tryNumTok s = some (tok, r)) :
    extractNums s = tok :: extractNums r :=
  scanAll_some tryNumTok tryNumTok_lt s tok r h

lemma extractNums_none (c : Char) (t : List Char) (h : tryNumTok (c :: t) = none) :
    extractNums (c :: t) = extractNums t :=
  scanAll_none tryNumTok tryNumTok_lt c t h

/-! ### Format A (KBank) line segmentation

Source pattern:
`(\d{2}-\d{2}-\d{2})\s+(\d{2}:\d{2})\s+(.*?)(?=\d{2}-\d{2}-\d{2}\s+\d{2}:\d{2}|$)`.
-/

/-- A `\d{2}:\d{2}` time at the head of `s` (the time part of the Format A
anchor lookahead). -/
def timeHead (s : List Char) : Bool :=
  match s with
  | h1 :: h2 :: s3 :: n1 :: n2 :: _ =>
    isDigitCh h1 && isDigitCh h2 && (s3 == ':') && isDigitCh n1 && isDigitCh n2
  | _ => false

/-- A `\d{2}-\d{2}-\d{2}` date at the head of `s`. -/
def dateA (s : List Char) : Bool :=
  match s with
  | d1 :: d2 :: s3 :: m1 :: m2 :: s6 :: y1 :: y2 :: _ =>
    isDigitCh d1 && isDigitCh d2 && (s3 == '-') && isDigitCh m1 && isDigitCh m2 &&
    (s6 == '-') && isDigitCh y1 && isDigitCh y2
  | _ => false

/-- The lookahead `\d{2}-\d{2}-\d{2}\s+\d{2}:\d{2}`: a date anchor followed
by whitespace and a time, starting at the head of `s`. -/
def anchorA (s : List Char) : Bool :=
  dateA s &&
  (!((s.drop 8).takeWhile isWsCh).isEmpty &&
    timeHead ((s.drop 8).dropWhile isWsCh))

/-- Lazy capture `(.*?)` bounded by the lookahead `(?=anchorA|$)`: the
shortest prefix whose stopping position starts a new anchor or is the end
of the text.  Returns the captured content and the rest. -/
def takeToStopA : List Char → List Char × List Char
  | [] => ([], [])
  | c :: t =>
    if anchorA (c :: t) then ([], c :: t)
    else
      let p := takeToStopA t
      (c :: p.1, p.2)

lemma takeToStopA_len : ∀ s : List Char, (takeToStopA s).2.length ≤ s.length := by
  intro s
  induction s with
  | nil => simp [takeToStopA]
  | cons c t ih =>
    simp only [takeToStopA]
    split
    · simp
    · simpa using Nat.le_succ_of_le ih

/-- One full Format A line match at the head of `s`: date, `\s+`, time,
`\s+`, then the lazily captured content.  Captures `(dateStr, time,
content)`. -/
def tryLineA (s : List Char) : Option ((List Char × List Char × List Char) × List Char) :=
  if dateA s then
    if ((s.drop 8).takeWhile isWsCh).isEmpty then none
    else if timeHead ((s.drop 8).dropWhile isWsCh) then
      if (((((s.drop 8).dropWhile isWsCh).drop 5)).takeWhile isWsCh).isEmpty then none
      else
        some ((s.take 8, ((s.drop 8).dropWhile isWsCh).take 5,
               (takeToStopA ((((s.drop 8).dropWhile isWsCh).drop 5).dropWhile isWsCh)).1),
              (takeToStopA ((((s.drop 8).dropWhile isWsCh).drop 5).dropWhile isWsCh)).2)
    else none
  else none

lemma dropWhile_length_le (p : Char → Bool) (s : List Char) :
    (s.dropWhile p).length ≤ s.length := by
  have := length_take_drop_while p s
  omega

lemma takeWhile_nonempty_of_not_isEmpty {p : Char → Bool} {s : List Char}
    (h : (s.takeWhile p).isEmpty = false) : s ≠ [] := by
  intro hs
  subst hs
  simp at h

lemma tryLineA_lt : ∀ s m r, tryLineA s = some (m, r) → r.length < s.length := by
  intro s m r h
  unfold tryLineA at h
  split at h
  · split at h
    · exact absurd h (by simp)
    · split at h
      · split at h
        · exact absurd h (by simp)
        · have hr : (takeToStopA ((((s.drop 8).dropWhile isWsCh).drop 5).dropWhile isWsCh)).2 = r :=
            (Prod.mk.injEq _ _ _ _ |>.mp (Option.some.inj h)).2
          have e1 : r.length ≤ ((((s.drop 8).dropWhile isWsCh).drop 5).dropWhile isWsCh).length :=
            hr ▸ takeToStopA_len _
          have e2 : ((((s.drop 8).dropWhile isWsCh).drop 5).dropWhile isWsCh).length ≤
              (((s.drop 8).dropWhile isWsCh).drop 5).length :=
            dropWhile_length_le _ _
          have e3 : (((s.drop 8).dropWhile isWsCh).drop 5).length =
              ((s.drop 8).dropWhile isWsCh).length - 5 := by
            simp
          have e4 : ((s.drop 8).dropWhile isWsCh).length ≤ (s.drop 8).length :=
            dropWhile_length_le _ _
          have e5 : (s.drop 8).length = s.length - 8 := by simp
          have e6 : s.drop 8 ≠ [] := by
            rename_i hw _ _
            exact takeWhile_nonempty_of_not_isEmpty (by simpa using hw)
          have e7 : 1 ≤ (s.drop 8).length := by
            cases hd : s.drop 8 with
            | nil => exact absurd hd e6
            | cons a t => simp [hd]
          omega
      · exact absurd h (by simp)
  · exact absurd h (by simp)

/-- All Format A line matches over the normalized text (the `matchAll` of
`parseKBank`). -/
def kbankMatches (s : List Char) : List (List Char × List Char × List Char) :=
  scanAll tryLineA s

lemma kbankMatches_some (s : List Char) (m : List Char × List Char × List Char)
    (r : List Char) (h : tryLineA s = some (m, r)) :
    kbankMatches s = m :: kbankMatches r :=
  scanAll_some tryLineA tryLineA_lt s m r h

lemma kbankMatches_none (c : Char) (t : List Char) (h : tryLineA (c :: t) = none) :
    kbankMatches (c :: t) = kbankMatches t :=
  scanAll_none tryLineA tryLineA_lt c t h

/-! ### Format B (KTB) line segmentation

Source pattern: `(\d{2}\/\d{2}\/\d{2})\s+(.*?)(?=\s\d{2}\/\d{2}\/\d{2}|\s*$)`.
-/

/-- A `\d{2}/\d{2}/\d{2}` date at the head of `s`. -/
def dateB (s : List Char) : Bool :=
  match s with
  | d1 :: d2 :: s3 :: m1 :: m2 :: s6 :: y1 :: y2 :: _ =>
    isDigitCh d1 && isDigitCh d2 && (s3 == '/') && isDigitCh m1 && isDigitCh m2 &&
    (s6 == '/') && isDigitCh y1 && isDigitCh y2
  | _ => false

/-- The lookahead `(?=\s\d{2}\/\d{2}\/\d{2}|\s*$)`: one whitespace
character followed by a date, or nothing but whitespace to the end. -/
def stopB (s : List Char) : Bool :=
  (match s with
   | c :: rest => isWsCh c && dateB rest
   | [] => false) ||
  s.all isWsCh

/-- Lazy capture `(.*?)` bounded by `stopB`. -/
def takeToStopB : List Char → List Char × List Char
  | [] => ([], [])
  | c :: t =>
    if stopB (c :: t) then ([], c :: t)
    else
      let p := takeToStopB t
      (c :: p.1, p.2)

lemma takeToStopB_len : ∀ s : List Char, (takeToStopB s).2.length ≤ s.length := by
  intro s
  induction s with
  | nil => simp [takeToStopB]
  | cons c t ih =>
    simp only [takeToStopB]
    split
    · simp
    · simpa using Nat.le_succ_of_le ih

/-- One full Format B line match at the head of `s`: date, `\s+`, then the
lazily captured content.  Captures `(dateStr, content)`. -/
def tryLineB (s : List Char) : Option ((List Char × List Char) × List Char) :=
  if dateB s then
    if ((s.drop 8).takeWhile isWsCh).isEmpty then none
    else
      some ((s.take 8, (takeToStopB ((s.drop 8).dropWhile isWsCh)).1),
            (takeToStopB ((s.drop 8).dropWhile isWsCh)).2)
  else none

lemma tryLineB_lt : ∀ s m r, tryLineB s = some (m, r) → r.length < s.length := by
  intro s m r h
  unfold tryLineB at h
  split at h
  · split at h
    · exact absurd h (by simp)
    · have hr : (takeToStopB ((s.drop 8).dropWhile isWsCh)).2 = r :=
        (Prod.mk.injEq _ _ _ _ |>.mp (Option.some.inj h)).2
      have e1 : r.length ≤ ((s.drop 8).dropWhile isWsCh).length :=
        hr ▸ takeToStopB_len _
      have e2 : ((s.drop 8).dropWhile isWsCh).length ≤ (s.drop 8).length :=
        dropWhile_length_le _ _
      have e5 : (s.drop 8).length = s.length - 8 := by simp
      have e6 : s.drop 8 ≠ [] := by
        rename_i hw
        exact takeWhile_nonempty_of_not_isEmpty (by simpa using hw)
      have e7 : 1 ≤ (s.drop 8).length := by
        cases hd : s.drop 8 with
        | nil => exact absurd hd e6
        | cons a t => simp [hd]
      omega
  · exact absurd h (by simp)

/-- All Format B line matches over the normalized text (the `matchAll` of
`parseKTB`). -/
def ktbMatches (s : List Char) : List (List Char × List Char) :=
  scanAll tryLineB s

lemma ktbMatches_some (s : List Char) (m : List Char × List Char)
    (r : List Char) (h : tryLineB s = some (m, r)) :
    ktbMatches s = m :: ktbMatches r :=
  scanAll_some tryLineB tryLineB_lt s m r h

lemma ktbMatches_none (c : Char) (t : List Char) (h : tryLineB (c :: t) = none) :
    ktbMatches (c :: t) = ktbMatches t :=
  scanAll_none tryLineB tryLineB_lt c t h

/-! ### Data model -/

inductive TxnType
  | income
  | expense
deriving DecidableEq, Repr

/-- Raw Format A candidate (the `rawTransactions` entries of `parseKBank`). -/
structure RawA where
  isoDate : List Char
  time : List Char
  description : List Char
  amount : ℚ
  balance : ℚ
deriving DecidableEq, Repr

/-- Raw Format B candidate (the `rawTransactions` entries of `parseKTB`). -/
structure RawB where
  isoDate : List Char
  time : Option (List Char)
  description : List Char
  amount : ℚ
  balance : ℚ
  isIncomeKeyword : Bool
deriving DecidableEq, Repr

/-- Output transaction.  The source renders `id` as the decimal string of a
sequential counter; the numeric counter is kept here. -/
structure Transaction where
  id : Nat
  date : List Char
  time : Option (List Char)
  description : List Char
  amount : ℚ
  type : TxnType
deriving DecidableEq, Repr

/-- Output statement.  Header metadata fields are extracted independently
of the transaction pipeline and are omitted from the model. -/
structure StatementData where
  bankName : List Char
  transactions : List Transaction
  rawText : List Char
deriving DecidableEq, Repr

/-! ### Format A (KBank) pipeline -/

/-- Field extraction for one Format A match: accepts the span only when it
contains at least two numeric tokens; `numbers[0]` is the balance and the
last token is the amount; the description is the content with every
matched token and the boilerplate phrases removed, trimmed and
whitespace-collapsed. -/
def kbankRawOfMatch (m : List Char × List Char × List Char) : Option RawA :=
  let dateStr := m.1
  let time := m.2.1
  let content := m.2.2
  let numbers := extractNums content
  if 2 ≤ numbers.length then
    let d0 := numbers.foldl (fun acc num => removeFirst num acc) content
    let d1 := removeFirst "K PLUS".data d0
    let d2 := removeFirst "ชำระเงิน".data d1
    let d3 := removeFirst "โอนเงิน".data d2
    let d4 := removeFirst "รับโอนเงิน".data d3
    let parts := splitOnCh '-' dateStr
    let d := parts.headD []
    let mo := (parts.drop 1).headD []
    let y := (parts.drop 2).headD []
    some { isoDate := kbankYearFull y ++ '-' :: mo ++ '-' :: d
           time := time
           description := collapseWs (trimL d4)
           amount := (parseAmount (numbers.getLastD [])).getD 0
           balance := (parseAmount (numbers.headD [])).getD 0 }
  else none

/-- The Format A keyword hint used for the first candidate: checked on the
cleaned description, not on the raw span. -/
def kbankHint (d : List Char) : Bool :=
  containsL "รับโอน".data d || containsL "ได้รับ".data d

/-- Format A polarity for a candidate with a predecessor: the raw
balance delta against `0.01`. -/
def kbankTypeStep (prev curr : RawA) : TxnType :=
  if qsub curr.balance prev.balance > mkRat 1 100 then .income else .expense

/-- Pass 2 of `parseKBank`: assign polarity walking the candidate list,
carrying the previous candidate. -/
def pass2A : Option RawA → Nat → List RawA → List Transaction
  | _, _, [] => []
  | none, n, c :: rest =>
    { id := n, date := c.isoDate, time := some c.time, description := c.description,
      amount := c.amount,
      type := if kbankHint c.description then .income else .expense } ::
    pass2A (some c) (n + 1) rest
  | some prev, n, c :: rest =>
    { id := n, date := c.isoDate, time := some c.time, description := c.description,
      amount := c.amount, type := kbankTypeStep prev c } ::
    pass2A (some c) (n + 1) rest

/-- Raw candidates of `parseKBank` for a text. -/
def kbankRaws (text : List Char) : List RawA :=
  (kbankMatches (collapseWs text)).filterMap kbankRawOfMatch

/-- The `parseKBank` function of the source. -/
def parseKBank (text : List Char) : StatementData :=
  { bankName := "ธนาคารกสิกรไทย (KBank)".data
    transactions := pass2A none 1 (kbankRaws text)
    rawText := text }

/-! ### Format B (KTB) pipeline -/

/-- Header-line guard of `parseKTB`: spans containing these marker phrases
are skipped. -/
def ktbGuard (content : List Char) : Bool :=
  containsL "ชื่อบัญชี".data content ||
  containsL "ที่อยู่ปัจจุบัน".data content ||
  containsL "วันที่ส่งคำขอ".data content

/-- A `\d{2}:\d{2}` time at the head of `s`. -/
def timeTokAt (s : List Char) : Option (List Char) :=
  if timeHead s then some (s.take 5) else none

/-- First match of `/(\d{2}:\d{2})/` in `s`. -/
def firstTimeTok : List Char → Option (List Char)
  | [] => none
  | c :: t =>
    match timeTokAt (c :: t) with
    | some tok => some tok
    | none => firstTimeTok t

/-- Model of `str.replace(/\d{2}:\d{2}/, "")`: removes the first time
token, leaves the text unchanged when none occurs. -/
def removeTimeOnce : List Char → List Char
  | [] => []
  | c :: t =>
    match timeTokAt (c :: t) with
    | some _ => List.drop 5 (c :: t)
    | none => c :: removeTimeOnce t

/-- The Format B income keyword hint, checked on the whole span content. -/
def ktbKeyword (content : List Char) : Bool :=
  containsL "โอนเงินเข้า".data content ||
  containsL "ฝากเงิน".data content ||
  containsL "รับโอน".data content ||
  containsL "เงินโอนเข้า".data content ||
  containsL "ดอกเบี้ย".data content ||
  containsL "เข้าบัญชี".data content ||
  containsL "คืนเงิน".data content

/-- Field extraction for one Format B match: skips header-marked spans,
requires at least one numeric token; the first token is the amount and the
last token is the balance (the same token when only one is present); the
description is the content before the first token, trimmed, with the first
time token removed, trimmed again. -/
def ktbRawOfMatch (m : List Char × List Char) : Option RawB :=
  let dateStr := m.1
  let content := m.2
  if ktbGuard content then none
  else
    match extractNums content with
    | [] => none
    | a0 :: restToks =>
      let parts := splitOnCh '/' dateStr
      let d := parts.headD []
      let mo := (parts.drop 1).headD []
      let y := (parts.drop 2).headD []
      some { isoDate := Nat.toDigits 10 (ktbYearAd y) ++ '-' :: mo ++ '-' :: d
             time := firstTimeTok content
             description := trimL (removeTimeOnce (trimL (takeBefore content a0)))
             amount := (parseAmount a0).getD 0
             balance := (parseAmount ((a0 :: restToks).getLastD [])).getD 0
             isIncomeKeyword := ktbKeyword content }

/-- Format B polarity for a candidate with a predecessor: reconstruct the
balance both ways within tolerance `0.05`, keyword fallback when neither
matches. -/
def ktbTypeStep (prev curr : RawB) : TxnType :=
  if qabs (qsub (qadd prev.balance curr.amount) curr.balance) < mkRat 5 100 then .income
  else if qabs (qsub (qsub prev.balance curr.amount) curr.balance) < mkRat 5 100 then .expense
  else if curr.isIncomeKeyword then .income else .expense

/-- Pass 2 of `parseKTB`. -/
def pass2B : Option RawB → Nat → List RawB → List Transaction
  | _, _, [] => []
  | none, n, c :: rest =>
    { id := n, date := c.isoDate, time := c.time, description := c.description,
      amount := c.amount,
      type := if c.isIncomeKeyword then .income else .expense } ::
    pass2B (some c) (n + 1) rest
  | some prev, n, c :: rest =>
    { id := n, date := c.isoDate, time := c.time, description := c.description,
      amount := c.amount, type := ktbTypeStep prev c } ::
    pass2B (some c) (n + 1) rest

/-- Raw candidates of `parseKTB` for a text. -/
def ktbRaws (text : List Char) : List RawB :=
  (ktbMatches (collapseWs text)).filterMap ktbRawOfMatch

/-- The `parseKTB` function of the source. -/
def parseKTB (text : List Char) : StatementData :=
  { bankName := "ธนาคารกรุงไทย (Krungthai)".data
    transactions := pass2B none 1 (ktbRaws text)
    rawText := text }

/-! ### Bridging lemmas: the reconciliation steps in standard `ℚ` terms -/

lemma ktbTypeStep_eq (prev curr : RawB) :
    ktbTypeStep prev curr =
      if |prev.balance + curr.amount - curr.balance| < 5 / 100 then .income
      else if |prev.balance - curr.amount - curr.balance| < 5 / 100 then .expense
      else if curr.isIncomeKeyword then .income else .expense := by
  unfold ktbTypeStep
  simp only [qadd_eq, qsub_eq, qabs_eq, ← q5_100]

lemma kbankTypeStep_eq (prev curr : RawA) :
    kbankTypeStep prev curr =
      if curr.balance - prev.balance > 1 / 100 then .income else .expense := by
  unfold kbankTypeStep
  simp only [qsub_eq, ← q1_100]

/-! ### Claim theorems -/

/-- C6: for every valid two-digit year `Y = 10*y1 + y2`, the Format B
(buddhist-era) conversion yields canonical year `(2500 + Y) - 543` and the
Format A (civil) conversion yields the string whose numeric value is
`2000 + Y`; in particular buddhist-era `68` yields `2025`. -/
theorem claim_C6 (y1 y2 : Char) (h1 : isDigitCh y1 = true) (h2 : isDigitCh y2 = true) :
    ktbYearAd [y1, y2] = (2500 + (10 * digVal y1 + digVal y2)) - 543 ∧
    digitsToNat (kbankYearFull [y1, y2]) = 2000 + (10 * digVal y1 + digVal y2) ∧
    ktbYearAd ['6', '8'] = 2025 := by
  have d2 : digVal '2' = 2 := by decide
  have d0 : digVal '0' = 0 := by decide
  refine ⟨?_, ?_, by decide⟩
  · unfold ktbYearAd parseIntNat
    rw [show List.takeWhile isDigitCh [y1, y2] = [y1, y2] by
      simp [List.takeWhile, h1, h2]]
    simp [digitsToNat, List.foldl]
  · simp [kbankYearFull, digitsToNat, List.foldl, d2, d0]
    ring

theorem claim_C6_witness :
    ktbYearAd ['6', '8'] = (2500 + (10 * digVal '6' + digVal '8')) - 543 ∧
    digitsToNat (kbankYearFull ['6', '8']) = 2000 + (10 * digVal '6' + digVal '8') ∧
    ktbYearAd ['6', '8'] = 2025 :=
  claim_C6 '6' '8' (by decide) (by decide)

/-- C10: when both Format B reconstructions match within the tolerance
(for example amount `0` with unchanged balance), the candidate is
classified income because the income reconstruction is tested first; the
keyword hint (arbitrary here) is ignored. -/
theorem claim_C10 (prev curr : RawB)
    (h1 : |prev.balance + curr.amount - curr.balance| < 5 / 100)
    (_h2 : |prev.balance - curr.amount - curr.balance| < 5 / 100) :
    ktbTypeStep prev curr = .income := by
  rw [ktbTypeStep_eq, if_pos h1]

theorem claim_C10_witness :
    ktbTypeStep
      { isoDate := [], time := none, description := [], amount := 0, balance := 1,
        isIncomeKeyword := false }
      { isoDate := [], time := none, description := [], amount := 0, balance := 1,
        isIncomeKeyword := false } = .income :=
  claim_C10 _ _
    (by simp only [q5_100, ← qabs_eq, ← qsub_eq, ← qadd_eq]; decide)
    (by simp only [q5_100, ← qabs_eq, ← qsub_eq]; decide)

/-- C4: the Format B tolerance comparison is strict: an income
reconstruction off by exactly `0.05` does not match (so with the expense
reconstruction also failing, the keyword fallback decides), while a
mismatch of `0.049` matches (income). -/
theorem claim_C4 (prev curr : RawB)
    (h5 : |prev.balance + curr.amount - curr.balance| = 5 / 100)
    (hexp : ¬ |prev.balance - curr.amount - curr.balance| < 5 / 100) :
    ktbTypeStep prev curr = (if curr.isIncomeKeyword then .income else .expense) ∧
    ∀ p c : RawB, |p.balance + c.amount - c.balance| = 49 / 1000 →
      ktbTypeStep p c = .income := by
  constructor
  · rw [ktbTypeStep_eq, if_neg (by rw [h5]; exact lt_irrefl _), if_neg hexp]
  · intro p c h
    rw [ktbTypeStep_eq, if_pos (by rw [h]; norm_num)]

theorem claim_C4_witness :
    ktbTypeStep
      { isoDate := [], time := none, description := [], amount := 0, balance := 0,
        isIncomeKeyword := false }
      { isoDate := [], time := none, description := [], amount := mkRat 1 20,
        balance := mkRat 1 10, isIncomeKeyword := false } = .expense ∧
    ktbTypeStep
      { isoDate := [], time := none, description := [], amount := 0, balance := 0,
        isIncomeKeyword := false }
      { isoDate := [], time := none, description := [], amount := mkRat 49 1000,
        balance := 0, isIncomeKeyword := false } = .income := by
  have h := claim_C4
    { isoDate := [], time := none, description := [], amount := 0, balance := 0,
      isIncomeKeyword := false }
    { isoDate := [], time := none, description := [], amount := mkRat 1 20,
      balance := mkRat 1 10, isIncomeKeyword := false }
    (by
      simp only [← qabs_eq, ← qsub_eq, ← qadd_eq]
      rw [q5_100]
      decide)
    (by
      simp only [q5_100, ← qabs_eq, ← qsub_eq]
      decide)
  exact ⟨h.1.trans (by decide), h.2 _ _ (by
    simp only [← qabs_eq, ← qsub_eq, ← qadd_eq]
    rw [show (49 : ℚ) / 1000 = mkRat 49 1000 by
      rw [Rat.mkRat_eq_divInt, Rat.divInt_eq_div]; norm_num]
    decide)⟩

/-! ### C9: inputs with no date anchors -/

/-- Does any suffix of `s` start a Format A line match? -/
def anyLineA : List Char → Bool
  | [] => false
  | c :: t => (tryLineA (c :: t)).isSome || anyLineA t

/-- Does any suffix of `s` start a Format B line match? -/
def anyLineB : List Char → Bool
  | [] => false
  | c :: t => (tryLineB (c :: t)).isSome || anyLineB t

lemma kbankMatches_nil_of_no_anchor :
    ∀ s, anyLineA s = false → kbankMatches s = [] := by
  intro s
  induction s with
  | nil => intro _; rfl
  | cons c t ih =>
    intro h
    simp only [anyLineA, Bool.or_eq_false_iff] at h
    rw [kbankMatches_none c t (by
      cases hc : tryLineA (c :: t) with
      | none => rfl
      | some v => rw [hc] at h; simp at h)]
    exact ih h.2

lemma ktbMatches_nil_of_no_anchor :
    ∀ s, anyLineB s = false → ktbMatches s = [] := by
  intro s
  induction s with
  | nil => intro _; rfl
  | cons c t ih =>
    intro h
    simp only [anyLineB, Bool.or_eq_false_iff] at h
    rw [ktbMatches_none c t (by
      cases hc : tryLineB (c :: t) with
      | none => rfl
      | some v => rw [hc] at h; simp at h)]
    exact ih h.2

/-- C9: a text whose normalization contains no date-anchor line match
yields a result with an empty transaction sequence (no exception — both
parsers are total functions) and the original input text retained. -/
theorem claim_C9 (ta tb : List Char)
    (hA : anyLineA (collapseWs ta) = false)
    (hB : anyLineB (collapseWs tb) = false) :
    (parseKBank ta).transactions = [] ∧ (parseKBank ta).rawText = ta ∧
    (parseKTB tb).transactions = [] ∧ (parseKTB tb).rawText = tb := by
  refine ⟨?_, rfl, ?_, rfl⟩
  · show pass2A none 1 (kbankRaws ta) = []
    rw [kbankRaws, kbankMatches_nil_of_no_anchor _ hA]
    rfl
  · show pass2B none 1 (ktbRaws tb) = []
    rw [ktbRaws, ktbMatches_nil_of_no_anchor _ hB]
    rfl

theorem claim_C9_witness :
    (parseKBank "สรุปยอดบัญชี".data).transactions = [] ∧
    (parseKBank "สรุปยอดบัญชี".data).rawText = "สรุปยอดบัญชี".data ∧
    (parseKTB "ไม่มีรายการ".data).transactions = [] ∧
    (parseKTB "ไม่มีรายการ".data).rawText = "ไม่มีรายการ".data :=
  claim_C9 _ _ (by decide) (by decide)

/-! ### C1: Format B single-token spans -/

/-- The Format B balance field as the spec words it (a refinement
comparison definition, following the spec text rather than the source):
the last numeric token when more than one token occurs in the span,
absent when only one token occurs. -/
def ktbBalanceSpec (content : List Char) : Option ℚ :=
  match extractNums content with
  | [] => none
  | [_] => none
  | toks => some ((parseAmount (toks.getLastD [])).getD 0)

theorem claim_C1_counterexample :
    (extractNums "ก 100.00".data).length = 1 ∧
    (ktbRawOfMatch ("01/07/68".data, "ก 100.00".data)).map RawB.balance = some 100 ∧
    ktbBalanceSpec "ก 100.00".data = none := by
  decide

/-- C1 (amended): a Format B span with exactly one numeric token yields a
candidate whose amount is that token's value and whose balance is present
and equal to the amount — the last token is always stored as the balance,
even when it coincides with the single token; the balance is never left
absent. -/
theorem claim_C1 (d content tok : List Char)
    (hg : ktbGuard content = false)
    (h1 : extractNums content = [tok]) :
    ∃ c : RawB, ktbRawOfMatch (d, content) = some c ∧
      c.amount = (parseAmount tok).getD 0 ∧ c.balance = c.amount := by
  unfold ktbRawOfMatch
  simp only [hg, Bool.false_eq_true, if_false, h1]
  exact ⟨_, rfl, rfl, rfl⟩

theorem claim_C1_witness :
    ∃ c : RawB, ktbRawOfMatch ("01/07/68".data, "ชำระ 250.00 ร้านค้า".data) = some c ∧
      c.amount = (parseAmount "250.00".data).getD 0 ∧ c.balance = c.amount :=
  claim_C1 "01/07/68".data "ชำระ 250.00 ร้านค้า".data "250.00".data (by decide) (by decide)

/-! ### C7: first-candidate polarity -/

def tC7 : List Char := "01-07-25 08:53 รับโอนเงิน 1,255.41 นาย 16.00".data

theorem claim_C7_counterexample :
    containsL "รับโอนเงิน".data ((kbankMatches (collapseWs tC7)).headD ([], [], [])).2.2 = true ∧
    (parseKBank tC7).transactions.map Transaction.type = [TxnType.expense] := by
  decide

/-- C7 (amended): the first candidate (no predecessor) is assigned income
exactly when its keyword hint is true, expense otherwise; the Format A
hint is evaluated on the cleaned description (numeric tokens and
boilerplate phrases removed), not on the raw span, so received-transfer
phrasing must survive that removal to classify the first candidate as
income. -/
theorem claim_C7 (ta tb : List Char) (cA : RawA) (rA : List RawA)
    (cB : RawB) (rB : List RawB)
    (hA : kbankRaws ta = cA :: rA) (hB : ktbRaws tb = cB :: rB) :
    ((parseKBank ta).transactions.map Transaction.type).headD TxnType.expense
        = (if kbankHint cA.description then TxnType.income else TxnType.expense) ∧
    ((parseKTB tb).transactions.map Transaction.type).headD TxnType.expense
        = (if cB.isIncomeKeyword then TxnType.income else TxnType.expense) := by
  constructor
  · show ((pass2A none 1 (kbankRaws ta)).map Transaction.type).headD TxnType.expense = _
    rw [hA]
    rfl
  · show ((pass2B none 1 (ktbRaws tb)).map Transaction.type).headD TxnType.expense = _
    rw [hB]
    rfl

def tC7wA : List Char := "01-07-25 08:53 ได้รับ 1.00 2.00".data

def tC7wB : List Char := "01/07/68 รับโอน 5.00".data

theorem claim_C7_witness :
    ((parseKBank tC7wA).transactions.map Transaction.type).headD TxnType.expense
        = TxnType.income ∧
    ((parseKTB tC7wB).transactions.map Transaction.type).headD TxnType.expense
        = TxnType.income := by
  have h := claim_C7 tC7wA tC7wB
    { isoDate := "2025-07-01".data, time := "08:53".data,
      description := "ได้รับ".data, amount := 2, balance := 1 }
    []
    { isoDate := "2025-07-01".data, time := none, description := "รับโอน".data,
      amount := 5, balance := 5, isIncomeKeyword := true }
    []
    (by decide) (by decide)
  exact ⟨h.1.trans (by decide), h.2.trans (by decide)⟩

/-! ### C5: the amount parser contract -/

/-- Full-token match of the numeric-token pattern `[\d,]+\.\d{2}`. -/
def isNumTok (tok : List Char) : Bool :=
  !(tok.takeWhile isDC).isEmpty &&
  (match tok.dropWhile isDC with
   | s1 :: a :: b :: rest => (s1 == '.') && isDigitCh a && isDigitCh b && rest.isEmpty
   | _ => false)

/-- The spec's strict shape `digits(.digits)?` for a separator-stripped
token: a nonempty digit run, optionally followed by a dot and a nonempty
digit run, with nothing else. -/
def digitsDotDigits (s : List Char) : Bool :=
  !(s.takeWhile isDigitCh).isEmpty &&
  (match s.dropWhile isDigitCh with
   | [] => true
   | s1 :: r2 => (s1 == '.') && !r2.isEmpty && r2.all isDigitCh)

theorem claim_C5_counterexample :
    isNumTok ",.12".data = true ∧
    digitsDotDigits (stripCommas ",.12".data) = false ∧
    parseAmount ",.12".data = some (mkRat 12 100) := by
  decide

lemma digit_ne_comma {c : Char} (h : isDigitCh c = true) : (c = ',') = False := by
  simp only [eq_iff_iff, iff_false]
  intro hc
  subst hc
  revert h
  decide

lemma takeWhile_all_append {p : Char → Bool} {l1 : List Char} (h1 : l1.all p = true)
    {x : Char} (hx : p x = false) (l2 : List Char) :
    (l1 ++ x :: l2).takeWhile p = l1 ∧ (l1 ++ x :: l2).dropWhile p = x :: l2 := by
  induction l1 with
  | nil => simp [List.takeWhile, List.dropWhile, hx]
  | cons c t ih =>
    simp only [List.all_cons, Bool.and_eq_true] at h1
    have := ih h1.2
    simp [List.takeWhile, List.dropWhile, h1.1, this.1, this.2]

/-- C5 (amended): `parseAmount` strips thousands separators and parses the
token; it raises no error at all — in particular, every token matched by
the numeric-token pattern parses successfully, even the tokens (such as
`",.12"`) whose separator-stripped form does not match `digits(.digits)?`.
There is no failing `FormatError` path. -/
theorem claim_C5 (tok : List Char) (h : isNumTok tok = true) :
    ∃ q : ℚ, parseAmount tok = some q := by
  unfold isNumTok at h
  rw [Bool.and_eq_true] at h
  obtain ⟨hrun, hshape⟩ := h
  cases hdrop : tok.dropWhile isDC with
  | nil => rw [hdrop] at hshape; simp at hshape
  | cons s1 r1 =>
    rcases r1 with _ | ⟨a, r2⟩
    · rw [hdrop] at hshape; simp at hshape
    · rcases r2 with _ | ⟨b, r3⟩
      · rw [hdrop] at hshape; simp at hshape
      · rw [hdrop] at hshape
        simp only [Bool.and_eq_true, beq_iff_eq, List.isEmpty_iff] at hshape
        obtain ⟨⟨⟨hs1, ha⟩, hb⟩, hr3⟩ := hshape
        subst hs1 hr3
        have hsplit : tok = tok.takeWhile isDC ++ '.' :: a :: b :: [] := by
          conv_lhs => rw [← List.takeWhile_append_dropWhile (p := isDC) (l := tok)]
          rw [hdrop]
        have hrunDig : ((tok.takeWhile isDC).filter (fun c => c ≠ ',')).all isDigitCh = true := by
          rw [List.all_eq_true]
          intro c hc
          rw [List.mem_filter] at hc
          have hmem := List.mem_takeWhile_imp hc.1
          have : isDigitCh c || c = ',' := hmem
          rcases Bool.or_eq_true_iff.mp this with hd | hcomma
          · exact hd
          · exfalso
            have := hc.2
            simp only [decide_eq_true_eq] at this hcomma
            exact this hcomma
        have hstrip : stripCommas tok =
            (tok.takeWhile isDC).filter (fun c => c ≠ ',') ++ '.' :: a :: b :: [] := by
          conv_lhs => rw [hsplit]
          unfold stripCommas
          rw [List.filter_append]
          congr 1
          have hna : (a = ',') = False := digit_ne_comma ha
          have hnb : (b = ',') = False := digit_ne_comma hb
          simp [List.filter, hna, hnb]
        have hdot : isDigitCh '.' = false := by decide
        have htd := takeWhile_all_append hrunDig hdot ([a, b])
        unfold parseAmount parseFloatQ
        rw [hstrip, htd.2]
        have hta : (List.takeWhile isDigitCh [a, b]) = [a, b] := by
          simp [List.takeWhile, ha, hb]
        simp [hta]

theorem claim_C5_witness :
    isNumTok "1,255.41".data = true ∧ ∃ q : ℚ, parseAmount "1,255.41".data = some q :=
  ⟨by decide, claim_C5 "1,255.41".data (by decide)⟩

/-! ### C3: self-consistent balances never reach the keyword fallback -/

/-- Exact self-consistency of one adjacent Format A candidate pair. -/
def consA (p c : RawA) : Prop :=
  c.balance = p.balance + c.amount ∨ c.balance = p.balance - c.amount

/-- Exact self-consistency of one adjacent Format B candidate pair. -/
def consB (p c : RawB) : Prop :=
  c.balance = p.balance + c.amount ∨ c.balance = p.balance - c.amount

/-- The Format B step with the keyword fallback removed: classification by
the balance arithmetic alone. -/
def ktbTypeArith (prev curr : RawB) : TxnType :=
  if qabs (qsub (qadd prev.balance curr.amount) curr.balance) < mkRat 5 100 then .income
  else .expense

lemma ktbTypeArith_eq (prev curr : RawB) :
    ktbTypeArith prev curr =
      if |prev.balance + curr.amount - curr.balance| < 5 / 100 then .income
      else .expense := by
  unfold ktbTypeArith
  simp only [qadd_eq, qsub_eq, qabs_eq, ← q5_100]

lemma ktbTypeStep_arith (p c : RawB) (h : consB p c) :
    ktbTypeStep p c = ktbTypeArith p c := by
  rw [ktbTypeStep_eq, ktbTypeArith_eq]
  rcases h with h | h
  · have hcond : |p.balance + c.amount - c.balance| < 5 / 100 := by
      rw [h, sub_self, abs_zero]
      norm_num
    rw [if_pos hcond, if_pos hcond]
  · by_cases hinc : |p.balance + c.amount - c.balance| < 5 / 100
    · rw [if_pos hinc, if_pos hinc]
    · have hexp : |p.balance - c.amount - c.balance| < 5 / 100 := by
        rw [h, sub_self, abs_zero]
        norm_num
      rw [if_neg hinc, if_neg hinc, if_pos hexp]

lemma pass2A_types_tail {cs cs' : List RawA}
    (h : List.Forall₂ (fun c c' => c.balance = c'.balance ∧ c.amount = c'.amount) cs cs') :
    ∀ (p p' : RawA) (n n' : Nat), p.balance = p'.balance →
      (pass2A (some p) n cs).map Transaction.type
        = (pass2A (some p') n' cs').map Transaction.type := by
  induction h with
  | nil => intro p p' n n' _; rfl
  | cons hcc _ ih =>
    intro p p' n n' hp
    simp only [pass2A, List.map_cons]
    congr 1
    · show kbankTypeStep p _ = kbankTypeStep p' _
      rw [kbankTypeStep_eq, kbankTypeStep_eq, hp, hcc.1]
    · exact ih _ _ _ _ hcc.1

lemma pass2B_types_tail {cs cs' : List RawB}
    (h : List.Forall₂ (fun c c' => c.balance = c'.balance ∧ c.amount = c'.amount) cs cs') :
    ∀ (p p' : RawB) (n n' : Nat), p.balance = p'.balance →
      List.Chain' consB (p :: cs) →
      (pass2B (some p) n cs).map Transaction.type
        = (pass2B (some p') n' cs').map Transaction.type := by
  induction h with
  | nil => intro p p' n n' _ _; rfl
  | @cons c c' t t' hcc hrest ih =>
    intro p p' n n' hp hchain
    rw [List.chain'_cons] at hchain
    have hpair : consB p c := hchain.1
    have hpair' : consB p' c' := by
      rcases hpair with hcase | hcase
      · left
        rw [← hcc.1, ← hcc.2, ← hp]
        exact hcase
      · right
        rw [← hcc.1, ← hcc.2, ← hp]
        exact hcase
    simp only [pass2B, List.map_cons]
    congr 1
    · show ktbTypeStep p c = ktbTypeStep p' c'
      rw [ktbTypeStep_arith p c hpair, ktbTypeStep_arith p' c' hpair',
        ktbTypeArith_eq, ktbTypeArith_eq, hp, hcc.1, hcc.2]
    · exact ih _ _ _ _ hcc.1 hchain.2

/-- C3: for candidate sequences with exactly self-consistent balances
(`balance[i] = balance[i-1] ± amount[i]`), every candidate after index 0
is classified by balance arithmetic alone: the classification is
independent of the keyword data beyond index 0 (Format A: descriptions;
Format B: keyword hints), and each consistent Format B pair is classified
exactly as by the fallback-free arithmetic step. -/
theorem claim_C3
    (csA csA' : List RawA) (csB csB' : List RawB) (nA nA' nB nB' : Nat)
    (hA2 : List.Forall₂ (fun c c' => c.balance = c'.balance ∧ c.amount = c'.amount) csA csA')
    (hAh : csA.head?.map (fun c => kbankHint c.description)
            = csA'.head?.map (fun c => kbankHint c.description))
    (_hAc : List.Chain' consA csA)
    (hB2 : List.Forall₂ (fun c c' => c.balance = c'.balance ∧ c.amount = c'.amount) csB csB')
    (hBh : csB.head?.map RawB.isIncomeKeyword = csB'.head?.map RawB.isIncomeKeyword)
    (hBc : List.Chain' consB csB) :
    (pass2A none nA csA).map Transaction.type = (pass2A none nA' csA').map Transaction.type ∧
    (pass2B none nB csB).map Transaction.type = (pass2B none nB' csB').map Transaction.type ∧
    (∀ p c : RawB, consB p c → ktbTypeStep p c = ktbTypeArith p c) := by
  refine ⟨?_, ?_, ktbTypeStep_arith⟩
  · cases hA2 with
    | nil => rfl
    | @cons a b t t' hcc hrest =>
      have hh : kbankHint a.description = kbankHint b.description := by simpa using hAh
      simp only [pass2A, List.map_cons]
      congr 1
      · rw [hh]
      · exact pass2A_types_tail hrest _ _ _ _ hcc.1
  · cases hB2 with
    | nil => rfl
    | @cons a b t t' hcc hrest =>
      have hh : a.isIncomeKeyword = b.isIncomeKeyword := by simpa using hBh
      simp only [pass2B, List.map_cons]
      congr 1
      · rw [hh]
      · exact pass2B_types_tail hrest _ _ _ _ hcc.1 hBc

def wA1 : RawA :=
  { isoDate := [], time := [], description := [], amount := 10, balance := 100 }

def wA2 : RawA :=
  { isoDate := [], time := [], description := "x".data, amount := 50, balance := 150 }

def wA2d : RawA :=
  { isoDate := [], time := [], description := "y".data, amount := 50, balance := 150 }

def wB1 : RawB :=
  { isoDate := [], time := none, description := [], amount := 10, balance := 100,
    isIncomeKeyword := false }

def wB2 : RawB :=
  { isoDate := [], time := none, description := [], amount := 50, balance := 150,
    isIncomeKeyword := false }

def wB2h : RawB :=
  { isoDate := [], time := none, description := [], amount := 50, balance := 150,
    isIncomeKeyword := true }

theorem claim_C3_witness :
    (pass2A none 1 [wA1, wA2]).map Transaction.type
      = (pass2A none 1 [wA1, wA2d]).map Transaction.type ∧
    (pass2B none 1 [wB1, wB2]).map Transaction.type
      = (pass2B none 1 [wB1, wB2h]).map Transaction.type ∧
    (∀ p c : RawB, consB p c → ktbTypeStep p c = ktbTypeArith p c) :=
  claim_C3 [wA1, wA2] [wA1, wA2d] [wB1, wB2] [wB1, wB2h] 1 1 1 1
    (List.Forall₂.cons ⟨rfl, rfl⟩ (List.Forall₂.cons ⟨rfl, rfl⟩ List.Forall₂.nil))
    rfl
    (List.chain'_cons.mpr
      ⟨Or.inl ((by decide : wA2.balance = qadd wA1.balance wA2.amount).trans (qadd_eq _ _)),
       List.chain'_singleton _⟩)
    (List.Forall₂.cons ⟨rfl, rfl⟩ (List.Forall₂.cons ⟨rfl, rfl⟩ List.Forall₂.nil))
    rfl
    (List.chain'_cons.mpr
      ⟨Or.inl ((by decide : wB2.balance = qadd wB1.balance wB2.amount).trans (qadd_eq _ _)),
       List.chain'_singleton _⟩)

/-! ### C8: Format A acceptance and the end-to-end scenario -/

def tC8 : List Char := "01-07-25 08:53 K PLUS 1,255.41 ชำระเงิน 16.00".data

def txn0 : Transaction :=
  { id := 0, date := [], time := none, description := [], amount := 0, type := .expense }

/-- C8: Format A accepts a span iff it has at least two numeric tokens,
reading the first token as balance and the last as amount; the scenario
span `"01-07-25 08:53 K PLUS 1,255.41 ชำระเงิน 16.00"` with no
predecessor yields amount `16.00`, balance `1255.41`, date `2025-07-01`,
time `08:53`, polarity expense, and a description containing neither
`"K PLUS"` nor either matched amount token. -/
theorem claim_C8 :
    (∀ m : List Char × List Char × List Char,
        ((kbankRawOfMatch m).isSome ↔ 2 ≤ (extractNums m.2.2).length) ∧
        ∀ c, kbankRawOfMatch m = some c →
          c.balance = (parseAmount ((extractNums m.2.2).headD [])).getD 0 ∧
          c.amount = (parseAmount ((extractNums m.2.2).getLastD [])).getD 0) ∧
    (parseKBank tC8).transactions =
      [{ id := 1, date := "2025-07-01".data, time := some "08:53".data,
         description := [], amount := 16, type := .expense }] ∧
    (kbankRaws tC8).map RawA.balance = [mkRat 125541 100] ∧
    containsL "K PLUS".data ((parseKBank tC8).transactions.headD txn0).description = false ∧
    containsL "1,255.41".data ((parseKBank tC8).transactions.headD txn0).description = false ∧
    containsL "16.00".data ((parseKBank tC8).transactions.headD txn0).description = false := by
  refine ⟨?_, by decide, by decide, by decide, by decide, by decide⟩
  intro m
  simp only [kbankRawOfMatch]
  split
  next h =>
    refine ⟨by simpa using h, ?_⟩
    intro c hc
    obtain rfl := Option.some.inj hc
    exact ⟨rfl, rfl⟩
  next h =>
    refine ⟨by simpa using h, ?_⟩
    intro c hc
    exact absurd hc (by simp)

theorem claim_C8_witness :
    (kbankRawOfMatch ("01-07-25".data, "08:53".data,
        "K PLUS 1,255.41 ชำระเงิน 16.00".data)).isSome = true ∧
    ∀ c, kbankRawOfMatch ("01-07-25".data, "08:53".data,
        "K PLUS 1,255.41 ชำระเงิน 16.00".data) = some c →
      c.balance = mkRat 125541 100 ∧ c.amount = 16 := by
  have h := claim_C8.1 ("01-07-25".data, "08:53".data,
    "K PLUS 1,255.41 ชำระเงิน 16.00".data)
  refine ⟨h.1.mpr (by decide), ?_⟩
  intro c hc
  have h2 := h.2 c hc
  refine ⟨h2.1.trans (by decide), h2.2.trans (by decide)⟩

/-! ### C2: segmentation of a blob with N anchors

The claim is settled over the family of texts built from an anchor-free
prefix followed by N entries (anchor + span content), with the content
digit-free so that the constructed anchors are exactly the anchor matches
of the text. -/

lemma digit_not_ws {c : Char} (h : isDigitCh c = true) : isWsCh c = false := by
  simp only [isDigitCh, Bool.and_eq_true, decide_eq_true_eq] at h
  simp only [isWsCh, Bool.or_eq_false_iff, decide_eq_false_iff_not]
  refine ⟨⟨⟨?_, ?_⟩, ?_⟩, ?_⟩ <;> rintro rfl <;> revert h <;> decide

/-- A Format A entry: a date anchor `d1d2-m1m2-y1y2`, a time `h1h2:n1n2`,
and the span content. -/
structure EntryA where
  d1 : Char
  d2 : Char
  m1 : Char
  m2 : Char
  y1 : Char
  y2 : Char
  h1 : Char
  h2 : Char
  n1 : Char
  n2 : Char
  content : List Char
deriving DecidableEq, Repr

/-- Wellformedness of a Format A entry: the anchor positions hold digits,
the content holds no digit (so it contains no anchor) and does not start
with whitespace (which the greedy `\s+` of the pattern would consume). -/
def entryAWf (e : EntryA) : Prop :=
  isDigitCh e.d1 = true ∧ isDigitCh e.d2 = true ∧ isDigitCh e.m1 = true ∧
  isDigitCh e.m2 = true ∧ isDigitCh e.y1 = true ∧ isDigitCh e.y2 = true ∧
  isDigitCh e.h1 = true ∧ isDigitCh e.h2 = true ∧ isDigitCh e.n1 = true ∧
  isDigitCh e.n2 = true ∧
  e.content.all (fun c => !isDigitCh c) = true ∧
  (e.content = [] ∨ isWsCh (e.content.headD ' ') = false)

instance (e : EntryA) : Decidable (entryAWf e) := by
  unfold entryAWf
  infer_instance

def entryADate (e : EntryA) : List Char :=
  [e.d1, e.d2, '-', e.m1, e.m2, '-', e.y1, e.y2]

def entryATime (e : EntryA) : List Char :=
  [e.h1, e.h2, ':', e.n1, e.n2]

/-- The text of one Format A entry: anchor, space, time, space, content. -/
def entryAText (e : EntryA) : List Char :=
  e.d1 :: e.d2 :: '-' :: e.m1 :: e.m2 :: '-' :: e.y1 :: e.y2 :: ' ' ::
  e.h1 :: e.h2 :: ':' :: e.n1 :: e.n2 :: ' ' :: e.content

/-- A Format A text blob: the concatenation of entry texts. -/
def textA (es : List EntryA) : List Char := (es.map entryAText).flatten

lemma dateA_false_head {c : Char} (hc : isDigitCh c = false) (t : List Char) :
    dateA (c :: t) = false := by
  rcases t with _ | ⟨a1, _ | ⟨a2, _ | ⟨a3, _ | ⟨a4, _ | ⟨a5, _ | ⟨a6, _ | ⟨a7, t⟩⟩⟩⟩⟩⟩⟩ <;>
    simp [dateA, hc]

lemma anchorA_false_head {c : Char} (hc : isDigitCh c = false) (t : List Char) :
    anchorA (c :: t) = false := by
  simp [anchorA, dateA_false_head hc]

lemma tryLineA_none_head {c : Char} (hc : isDigitCh c = false) (t : List Char) :
    tryLineA (c :: t) = none := by
  simp [tryLineA, dateA_false_head hc]

lemma kbankMatches_skip : ∀ (pre s : List Char),
    pre.all (fun c => !isDigitCh c) = true →
    kbankMatches (pre ++ s) = kbankMatches s := by
  intro pre
  induction pre with
  | nil => intro s _; rfl
  | cons c p ih =>
    intro s h
    simp only [List.all_cons, Bool.and_eq_true] at h
    have hc : isDigitCh c = false := by simpa using h.1
    rw [List.cons_append, kbankMatches_none _ _ (tryLineA_none_head hc _), ih s h.2]

lemma anchorA_nil : anchorA [] = false := by
  simp [anchorA, dateA]

lemma takeToStopA_stop {s : List Char} (h : anchorA s = true ∨ s = []) :
    takeToStopA s = ([], s) := by
  rcases h with h | rfl
  · cases s with
    | nil => rw [anchorA_nil] at h; exact absurd h (by simp)
    | cons c t => simp [takeToStopA, h]
  · rfl

lemma takeToStopA_content : ∀ (cnt r : List Char),
    cnt.all (fun c => !isDigitCh c) = true → (anchorA r = true ∨ r = []) →
    takeToStopA (cnt ++ r) = (cnt, r) := by
  intro cnt
  induction cnt with
  | nil =>
    intro r _ hr
    simpa using takeToStopA_stop hr
  | cons c t ih =>
    intro r h hr
    simp only [List.all_cons, Bool.and_eq_true] at h
    have hc : isDigitCh c = false := by simpa using h.1
    rw [List.cons_append]
    simp [takeToStopA, anchorA_false_head hc, ih r h.2 hr]

lemma takeWhile_cons_pos {p : Char → Bool} {c : Char} (h : p c = true) (l : List Char) :
    (c :: l).takeWhile p = c :: l.takeWhile p := by
  simp [List.takeWhile, h]

lemma takeWhile_cons_neg {p : Char → Bool} {c : Char} (h : p c = false) (l : List Char) :
    (c :: l).takeWhile p = [] := by
  simp [List.takeWhile, h]

lemma dropWhile_cons_pos {p : Char → Bool} {c : Char} (h : p c = true) (l : List Char) :
    (c :: l).dropWhile p = l.dropWhile p := by
  simp [List.dropWhile, h]

lemma dropWhile_cons_neg {p : Char → Bool} {c : Char} (h : p c = false) (l : List Char) :
    (c :: l).dropWhile p = c :: l := by
  simp [List.dropWhile, h]

lemma ws_space : isWsCh ' ' = true := by decide

lemma tryLineA_entry (e : EntryA) (r : List Char) (hw : entryAWf e)
    (hr : anchorA r = true ∨ r = []) :
    tryLineA (entryAText e ++ r) =
      some ((entryADate e, entryATime e, e.content), r) := by
  obtain ⟨h1, h2, h3, h4, h5, h6, h7, h8, h9, h10, hdf, hhead⟩ := hw
  have hda : dateA (entryAText e ++ r) = true := by
    show dateA (e.d1 :: e.d2 :: '-' :: e.m1 :: e.m2 :: '-' :: e.y1 :: e.y2 :: ' ' ::
      e.h1 :: e.h2 :: ':' :: e.n1 :: e.n2 :: ' ' :: (e.content ++ r)) = true
    simp [dateA, h1, h2, h3, h4, h5, h6]
  have hd8 : (entryAText e ++ r).drop 8 =
      ' ' :: e.h1 :: e.h2 :: ':' :: e.n1 :: e.n2 :: ' ' :: (e.content ++ r) := rfl
  have htw : ((entryAText e ++ r).drop 8).takeWhile isWsCh = [' '] := by
    rw [hd8, takeWhile_cons_pos ws_space, takeWhile_cons_neg (digit_not_ws h7)]
  have hdw : ((entryAText e ++ r).drop 8).dropWhile isWsCh =
      e.h1 :: e.h2 :: ':' :: e.n1 :: e.n2 :: ' ' :: (e.content ++ r) := by
    rw [hd8, dropWhile_cons_pos ws_space, dropWhile_cons_neg (digit_not_ws h7)]
  have hth : timeHead (e.h1 :: e.h2 :: ':' :: e.n1 :: e.n2 :: ' ' :: (e.content ++ r))
      = true := by
    simp [timeHead, h7, h8, h9, h10]
  have hdw2 : List.dropWhile isWsCh (e.content ++ r) = e.content ++ r := by
    rcases hhead with hnil | hhd
    · rw [hnil]
      simp only [List.nil_append]
      rcases hr with hanch | rfl
      · cases r with
        | nil => rfl
        | cons c t =>
          have hcd : isDigitCh c = true := by
            by_contra hcon
            rw [anchorA_false_head (by simpa using hcon) t] at hanch
            exact absurd hanch (by simp)
          rw [dropWhile_cons_neg (digit_not_ws hcd)]
      · rfl
    · cases hcnt : e.content with
      | nil =>
        rw [hcnt] at hhd
        exact absurd hhd (by decide)
      | cons c t =>
        rw [hcnt] at hhd
        simp only [List.headD_cons] at hhd
        exact dropWhile_cons_neg hhd _
  unfold tryLineA
  rw [hda, if_pos rfl, htw]
  rw [if_neg (by simp)]
  rw [hdw, hth, if_pos rfl]
  have hd5 : (e.h1 :: e.h2 :: ':' :: e.n1 :: e.n2 :: ' ' :: (e.content ++ r)).drop 5
      = ' ' :: (e.content ++ r) := rfl
  rw [hd5, takeWhile_cons_pos ws_space]
  rw [if_neg (by simp)]
  rw [dropWhile_cons_pos ws_space, hdw2,
    takeToStopA_content e.content r hdf hr]
  rfl

lemma anchorA_entry (e : EntryA) (r : List Char) (hw : entryAWf e) :
    anchorA (entryAText e ++ r) = true := by
  obtain ⟨h1, h2, h3, h4, h5, h6, h7, h8, h9, h10, hdf, hhead⟩ := hw
  have hda : dateA (entryAText e ++ r) = true := by
    show dateA (e.d1 :: e.d2 :: '-' :: e.m1 :: e.m2 :: '-' :: e.y1 :: e.y2 :: ' ' ::
      e.h1 :: e.h2 :: ':' :: e.n1 :: e.n2 :: ' ' :: (e.content ++ r)) = true
    simp [dateA, h1, h2, h3, h4, h5, h6]
  have hd8 : (entryAText e ++ r).drop 8 =
      ' ' :: e.h1 :: e.h2 :: ':' :: e.n1 :: e.n2 :: ' ' :: (e.content ++ r) := rfl
  have htw : ((entryAText e ++ r).drop 8).takeWhile isWsCh = [' '] := by
    rw [hd8, takeWhile_cons_pos ws_space, takeWhile_cons_neg (digit_not_ws h7)]
  have hdw : ((entryAText e ++ r).drop 8).dropWhile isWsCh =
      e.h1 :: e.h2 :: ':' :: e.n1 :: e.n2 :: ' ' :: (e.content ++ r) := by
    rw [hd8, dropWhile_cons_pos ws_space, dropWhile_cons_neg (digit_not_ws h7)]
  unfold anchorA
  rw [hda, htw, hdw]
  simp [timeHead, h7, h8, h9, h10]

lemma kbankMatches_textA : ∀ es : List EntryA, (∀ e ∈ es, entryAWf e) →
    kbankMatches (textA es)
      = es.map (fun e => (entryADate e, entryATime e, e.content)) := by
  intro es
  induction es with
  | nil => intro _; rfl
  | cons e es ih =>
    intro hw
    have hwe := hw e (by simp)
    have hwr : ∀ x ∈ es, entryAWf x := fun x hx => hw x (by simp [hx])
    have hr : anchorA (textA es) = true ∨ textA es = [] := by
      cases es with
      | nil => exact Or.inr rfl
      | cons e2 es2 =>
        refine Or.inl ?_
        show anchorA (entryAText e2 ++ textA es2) = true
        exact anchorA_entry e2 _ (hwr e2 (by simp))
    have hsplit : textA (e :: es) = entryAText e ++ textA es := rfl
    rw [hsplit, kbankMatches_some _ _ _ (tryLineA_entry e (textA es) hwe hr), ih hwr]
    rfl

/-- A Format B entry: a date anchor `d1d2/m1m2/y1y2` and the span content. -/
structure EntryB where
  d1 : Char
  d2 : Char
  m1 : Char
  m2 : Char
  y1 : Char
  y2 : Char
  content : List Char
deriving DecidableEq, Repr

/-- Wellformedness of a Format B entry: digits in the anchor; nonempty
digit-free content (so it contains no anchor) that neither starts nor ends
with whitespace (a leading space would be consumed by the greedy `\s+`, a
trailing space would be cut off by the `\s*$` stop alternative). -/
def entryBWf (e : EntryB) : Prop :=
  isDigitCh e.d1 = true ∧ isDigitCh e.d2 = true ∧ isDigitCh e.m1 = true ∧
  isDigitCh e.m2 = true ∧ isDigitCh e.y1 = true ∧ isDigitCh e.y2 = true ∧
  e.content ≠ [] ∧
  e.content.all (fun c => !isDigitCh c) = true ∧
  isWsCh (e.content.headD ' ') = false ∧
  isWsCh (e.content.getLastD ' ') = false

instance (e : EntryB) : Decidable (entryBWf e) := by
  unfold entryBWf
  infer_instance

def entryBDate (e : EntryB) : List Char :=
  [e.d1, e.d2, '/', e.m1, e.m2, '/', e.y1, e.y2]

/-- The text of one Format B entry: anchor, space, content. -/
def entryBText (e : EntryB) : List Char :=
  e.d1 :: e.d2 :: '/' :: e.m1 :: e.m2 :: '/' :: e.y1 :: e.y2 :: ' ' :: e.content

/-- A Format B text blob: entry texts separated (and terminated) by the
single space that the stop lookahead `\s\d{2}/\d{2}/\d{2}` requires. -/
def textB (es : List EntryB) : List Char :=
  (es.map (fun e => entryBText e ++ [' '])).flatten

lemma dateB_false_head {c : Char} (hc : isDigitCh c = false) (t : List Char) :
    dateB (c :: t) = false := by
  rcases t with _ | ⟨a1, _ | ⟨a2, _ | ⟨a3, _ | ⟨a4, _ | ⟨a5, _ | ⟨a6, _ | ⟨a7, t⟩⟩⟩⟩⟩⟩⟩ <;>
    simp [dateB, hc]

lemma tryLineB_none_head {c : Char} (hc : isDigitCh c = false) (t : List Char) :
    tryLineB (c :: t) = none := by
  simp [tryLineB, dateB_false_head hc]

lemma ktbMatches_skip : ∀ (pre s : List Char),
    pre.all (fun c => !isDigitCh c) = true →
    ktbMatches (pre ++ s) = ktbMatches s := by
  intro pre
  induction pre with
  | nil => intro s _; rfl
  | cons c p ih =>
    intro s h
    simp only [List.all_cons, Bool.and_eq_true] at h
    have hc : isDigitCh c = false := by simpa using h.1
    rw [List.cons_append, ktbMatches_none _ _ (tryLineB_none_head hc _), ih s h.2]

lemma getLastD_cons2 (a b : Char) (l : List Char) (d : Char) :
    (a :: b :: l).getLastD d = (b :: l).getLastD a := by
  simp [List.getLastD]

lemma getLastD_default_irrel : ∀ (l : List Char), l ≠ [] →
    ∀ d1 d2 : Char, l.getLastD d1 = l.getLastD d2 := by
  intro l
  induction l with
  | nil => intro h; exact absurd rfl h
  | cons c t _ =>
    intro _ d1 d2
    cases t with
    | nil => simp
    | cons t0 t' => rw [getLastD_cons2, getLastD_cons2]

lemma append_all_ws_false : ∀ (l : List Char) (d : Char) (r : List Char),
    l ≠ [] → isWsCh (l.getLastD d) = false → ((l ++ r).all isWsCh) = false := by
  intro l
  induction l with
  | nil => intro d r hne _; exact absurd rfl hne
  | cons c t ih =>
    intro d r _ hlast
    cases t with
    | nil =>
      have hcw : isWsCh c = false := by simpa using hlast
      simp [hcw]
    | cons t0 t' =>
      have hl : isWsCh ((t0 :: t').getLastD c) = false := by
        rw [← getLastD_cons2]
        exact hlast
      have hx := ih c r (by simp) hl
      simp only [List.cons_append, List.all_cons] at hx ⊢
      rw [hx, Bool.and_false]

lemma stopB_stop {r : List Char} (h : stopB r = true) : takeToStopB r = ([], r) := by
  cases r with
  | nil => rfl
  | cons c t => simp [takeToStopB, h]

lemma takeToStopB_content : ∀ (cnt r : List Char),
    cnt.all (fun c => !isDigitCh c) = true →
    isWsCh (cnt.getLastD ' ') = false →
    stopB r = true →
    cnt ≠ [] →
    takeToStopB (cnt ++ r) = (cnt, r) := by
  intro cnt
  induction cnt with
  | nil => intro r _ _ _ hne; exact absurd rfl hne
  | cons c t ih =>
    intro r hdf hlast hstop _
    simp only [List.all_cons, Bool.and_eq_true] at hdf
    rw [List.cons_append]
    cases t with
    | nil =>
      have hcw : isWsCh c = false := by simpa using hlast
      have hsf : stopB (c :: r) = false := by
        simp only [stopB]
        cases r with
        | nil => simp [hcw]
        | cons r0 rt => simp [hcw]
      simp only [List.nil_append]
      rw [show takeToStopB (c :: r) =
            if stopB (c :: r) then ([], c :: r)
            else ((c :: (takeToStopB r).1, (takeToStopB r).2) :
              List Char × List Char) from rfl]
      rw [hsf]
      simp [stopB_stop hstop]
    | cons t0 t' =>
      have ht0 : isDigitCh t0 = false := by
        have h2 := hdf.2
        simp only [List.all_cons, Bool.and_eq_true] at h2
        simpa using h2.1
      have hlast' : isWsCh ((t0 :: t').getLastD ' ') = false := by
        rw [getLastD_default_irrel (t0 :: t') (by simp) ' ' c, ← getLastD_cons2]
        exact hlast
      have hall : ((c :: t0 :: t') ++ r).all isWsCh = false :=
        append_all_ws_false (c :: t0 :: t') ' ' r (by simp) hlast
      simp only [List.cons_append] at hall ⊢
      have hsf : stopB (c :: t0 :: (t' ++ r)) = false := by
        simp only [stopB]
        rw [dateB_false_head ht0]
        simp only [List.all_cons] at hall ⊢
        rw [hall]
        simp
      have hih := ih r hdf.2 hlast' hstop (by simp)
      simp only [List.cons_append] at hih
      rw [show takeToStopB (c :: t0 :: (t' ++ r)) =
            if stopB (c :: t0 :: (t' ++ r)) then ([], c :: t0 :: (t' ++ r))
            else ((c :: (takeToStopB (t0 :: (t' ++ r))).1,
                   (takeToStopB (t0 :: (t' ++ r))).2) :
              List Char × List Char) from rfl]
      rw [hsf, if_neg (by simp), hih]

lemma dateB_entry (e : EntryB) (r : List Char)
    (h1 : isDigitCh e.d1 = true) (h2 : isDigitCh e.d2 = true)
    (h3 : isDigitCh e.m1 = true) (h4 : isDigitCh e.m2 = true)
    (h5 : isDigitCh e.y1 = true) (h6 : isDigitCh e.y2 = true) :
    dateB (entryBText e ++ r) = true := by
  show dateB (e.d1 :: e.d2 :: '/' :: e.m1 :: e.m2 :: '/' :: e.y1 :: e.y2 :: ' ' ::
    (e.content ++ r)) = true
  simp [dateB, h1, h2, h3, h4, h5, h6]

lemma tryLineB_entry (e : EntryB) (r : List Char) (hw : entryBWf e)
    (hstop : stopB r = true) :
    tryLineB (entryBText e ++ r) = some ((entryBDate e, e.content), r) := by
  obtain ⟨h1, h2, h3, h4, h5, h6, hne, hdf, hhd, hlast⟩ := hw
  have hda := dateB_entry e r h1 h2 h3 h4 h5 h6
  have hd8 : (entryBText e ++ r).drop 8 = ' ' :: (e.content ++ r) := rfl
  cases hcnt : e.content with
  | nil => exact absurd hcnt hne
  | cons c0 ct =>
    have hc0 : isWsCh c0 = false := by
      rw [hcnt] at hhd
      simpa using hhd
    have htw : ((entryBText e ++ r).drop 8).takeWhile isWsCh
        = ' ' :: (e.content ++ r).takeWhile isWsCh := by
      rw [hd8, takeWhile_cons_pos ws_space]
    have hdw : ((entryBText e ++ r).drop 8).dropWhile isWsCh = e.content ++ r := by
      rw [hd8, dropWhile_cons_pos ws_space, hcnt, List.cons_append,
        dropWhile_cons_neg hc0]
    unfold tryLineB
    rw [hda, if_pos rfl, htw]
    rw [if_neg (by simp)]
    rw [hdw, takeToStopB_content e.content r hdf hlast hstop hne, hcnt]
    rfl

lemma ktbMatches_textB : ∀ es : List EntryB, (∀ e ∈ es, entryBWf e) →
    ktbMatches (textB es) = es.map (fun e => (entryBDate e, e.content)) := by
  intro es
  induction es with
  | nil => intro _; rfl
  | cons e es ih =>
    intro hw
    have hwe := hw e (by simp)
    have hwr : ∀ x ∈ es, entryBWf x := fun x hx => hw x (by simp [hx])
    have hstop : stopB (' ' :: textB es) = true := by
      cases es with
      | nil => decide
      | cons e2 es2 =>
        have hw2 := hwr e2 (by simp)
        obtain ⟨g1, g2, g3, g4, g5, g6, -, -, -, -⟩ := hw2
        show stopB (' ' :: ((entryBText e2 ++ [' ']) ++ textB es2)) = true
        simp only [stopB, List.append_assoc]
        rw [dateB_entry e2 _ g1 g2 g3 g4 g5 g6]
        simp [ws_space]
    have hsplit : textB (e :: es) = entryBText e ++ (' ' :: textB es) := by
      show (entryBText e ++ [' ']) ++ textB es = _
      rw [List.append_assoc]
      rfl
    rw [hsplit, ktbMatches_some _ _ _ (tryLineB_entry e (' ' :: textB es) hwe hstop)]
    rw [ktbMatches_none _ _ (tryLineB_none_head (by decide) _), ih hwr]
    rfl

/-- One leftmost match of the bare Format B date-anchor pattern
`\d{2}/\d{2}/\d{2}` (consuming the eight matched characters). -/
def tryDateB (s : List Char) : Option (Unit × List Char) :=
  if dateB s then some ((), s.drop 8) else none

/-- The number of non-overlapping leftmost matches of the Format B
date-anchor pattern in a text (the `matchAll` count of the anchor alone). -/
def countDatesB (s : List Char) : Nat := (scanAll tryDateB s).length

theorem claim_C2_counterexample :
    countDatesB "01/07/68 02/07/68 X".data = 2 ∧
    ktbMatches "01/07/68 02/07/68 X".data
      = [("01/07/68".data, "02/07/68 X".data)] ∧
    countDatesB "01/07/68".data = 1 ∧
    ktbMatches "01/07/68".data = [] ∧
    anchorA "01-07-25 08:53".data = true ∧
    kbankMatches "01-07-25 08:53".data = [] := by
  decide

/-- C2 (amended): segmenting a blob made of an anchor-free prefix followed
by N wellformed entries — each anchor followed by whitespace, each span
content nonempty, digit-free and not whitespace-bounded, each Format B
span separated from the next anchor by whitespace — yields exactly N
spans, the i-th starting immediately after the i-th anchor and ending
right before the next anchor (or at the end of input), in position order;
entry dates are arbitrary digit pairs, so out-of-date-order inputs yield
out-of-order spans with no re-sorting.  Without those layout conditions N
anchor matches need not give N spans: an anchor with no following
whitespace starts no span, and a Format B anchor not preceded by
whitespace is swallowed into the previous span. -/
theorem claim_C2 (preA : List Char) (esA : List EntryA)
    (preB : List Char) (esB : List EntryB)
    (hpA : preA.all (fun c => !isDigitCh c) = true)
    (hwA : ∀ e ∈ esA, entryAWf e)
    (hpB : preB.all (fun c => !isDigitCh c) = true)
    (hwB : ∀ e ∈ esB, entryBWf e) :
    kbankMatches (preA ++ textA esA)
        = esA.map (fun e => (entryADate e, entryATime e, e.content)) ∧
    (kbankMatches (preA ++ textA esA)).length = esA.length ∧
    ktbMatches (preB ++ textB esB) = esB.map (fun e => (entryBDate e, e.content)) ∧
    (ktbMatches (preB ++ textB esB)).length = esB.length := by
  have hA := (kbankMatches_skip preA _ hpA).trans (kbankMatches_textA esA hwA)
  have hB := (ktbMatches_skip preB _ hpB).trans (ktbMatches_textB esB hwB)
  exact ⟨hA, by rw [hA]; simp, hB, by rw [hB]; simp⟩

def wE1 : EntryA :=
  ⟨'0', '5', '0', '7', '2', '5', '0', '8', '5', '3', "ถอน ก".data⟩

def wE2 : EntryA :=
  ⟨'0', '1', '0', '7', '2', '5', '0', '9', '0', '0', "ฝาก ข".data⟩

def wF1 : EntryB := ⟨'0', '5', '0', '7', '6', '8', "ถอนเงิน".data⟩

def wF2 : EntryB := ⟨'0', '1', '0', '7', '6', '8', "ฝากเงิน".data⟩

theorem claim_C2_witness :
    kbankMatches ("สมุดบัญชี ".data ++ textA [wE1, wE2])
        = [wE1, wE2].map (fun e => (entryADate e, entryATime e, e.content)) ∧
    (kbankMatches ("สมุดบัญชี ".data ++ textA [wE1, wE2])).length = [wE1, wE2].length ∧
    ktbMatches ("สมุดบัญชี ".data ++ textB [wF1, wF2])
        = [wF1, wF2].map (fun e => (entryBDate e, e.content)) ∧
    (ktbMatches ("สมุดบัญชี ".data ++ textB [wF1, wF2])).length = [wF1, wF2].length :=
  claim_C2 "สมุดบัญชี ".data [wE1, wE2] "สมุดบัญชี ".data [wF1, wF2]
    (by decide) (by decide) (by decide) (by decide)

end RStatement
